import Mathlib

/-!
Shallow embedding of the bend-reduction engine of `reduce_bend_algorithm.py`.

The engine mutates line strings (lists of vertices) and a spatial index of
segments.  The external QGIS geometry library (lengths, areas, distances,
the binary predicates `disjoint` and `contains`, `closestVertex`,
`interpolatePoint`) is a collaborator outside the repository, so its results
enter the model as explicit oracle parameters (functions supplied to each
embedded operation); the decision logic, loops and list manipulation of the
repository code are translated literally.  Vertices are modelled generically
(instantiated with pairs of rationals in concrete runs), areas and adjusted
areas over an arbitrary linear order (the code only ever compares them).
-/

namespace ReduceBendModel

/-- Global constant `ANTI_CLOCK_WISE = -1` from the source. -/
def ANTI_CLOCK_WISE : Int := -1

/-- Global constant `CLOCK_WISE = 0` from the source. -/
def CLOCK_WISE : Int := 0

/-- Embedding of `ReduceBend.calculate_adj_area`: the compactness index is
`4 * area * pi / perimeter ** 2` and the adjusted area is
`area * (.75 / compactness_index)`. -/
noncomputable def calculate_adj_area (area perimeter : ℝ) : ℝ :=
  area * (0.75 / (4 * area * Real.pi / perimeter ^ 2))

/-- Embedding of `ReduceBend.calculate_min_adj_area`:
`.75 * pi * (diameter_tol / 2.) ** 2`. -/
noncomputable def calculate_min_adj_area (diameter_tol : ℝ) : ℝ :=
  0.75 * Real.pi * (diameter_tol / 2) ^ 2

/-- Exceptions that `RbCollection._delete_segment` can raise.  The first two
correspond to the two `raise Exception(QgsProcessingException(...))` sites;
the third models the Python `UnboundLocalError` raised by `if not deleted`
when the window query returned no candidate at all, so `deleted` was never
assigned. -/
inductive SegDeleteError where
  | deleteFailed
  | structureCorruption
  | unboundLocalDeleted
deriving DecidableEq

/-- Loop body of `RbCollection._delete_segment`: iterate over the candidate
entries returned by the window query around the segment midpoint.  `matcher e`
is the oracle for "both endpoints of entry `e` are within `ZERO_RELATIVE` of
the requested endpoints" (two external `distance` calls); `delOk e` is the
oracle for `QgsSpatialIndex.deleteFeature` succeeding.  The `deleted` local of
the Python loop is threaded as an `Option Bool` (`none` = never assigned). -/
def delete_segment_loop {E : Type} (matcher delOk : E → Bool) :
    List E → Option Bool → Except SegDeleteError (Option Bool)
  | [], deleted => Except.ok deleted
  | e :: es, _ =>
    if matcher e then
      if delOk e then Except.ok (some true)
      else Except.error SegDeleteError.deleteFailed
    else delete_segment_loop matcher delOk es (some false)

/-- Embedding of `RbCollection._delete_segment` after the window query: run
the candidate loop, then `if not deleted: raise`.  A `deleted` that was never
assigned (empty candidate list) raises the Python `UnboundLocalError`. -/
def delete_segment {E : Type} (matcher delOk : E → Bool) (entries : List E) :
    Except SegDeleteError Unit :=
  match delete_segment_loop matcher delOk entries none with
  | Except.error e => Except.error e
  | Except.ok (some true) => Except.ok ()
  | Except.ok (some false) => Except.error SegDeleteError.structureCorruption
  | Except.ok none => Except.error SegDeleteError.unboundLocalDeleted

/-- Effect of `RbCollection.delete_vertex` on the vertex list of the path:
vertices at positions `v_id_start .. v_id_end` (inclusive) are deleted
(the Python code deletes them one by one in reverse order). -/
def delete_vertex_points {P : Type} (pts : List P) (v_id_start v_id_end : ℕ) :
    List P :=
  pts.take v_id_start ++ pts.drop (v_id_end + 1)

/-- Effect of `RbCollection.add_vertex` on the vertex list of the path: the
interior points of the new subline (`qgs_points[1:-1]`) are inserted before
position `bend_j` (the Python code inserts them in reverse order at `bend_j`,
which yields them in order). -/
def add_vertex_points {P : Type} (pts : List P) (bend_j : ℕ)
    (qgs_points : List P) : List P :=
  pts.take bend_j ++ (qgs_points.drop 1).dropLast ++ pts.drop bend_j

/-- Embedding of `rb_geom.qgs_geom.vertexAt`, with an explicit default for
out-of-range access. -/
def vertexAt {P : Type} (pts : List P) (k : ℕ) (d : P) : P :=
  pts.getD k d

/-- The decision-relevant state of a `Bend` object: the two vertex indices
`i < j`, the cached polygon `area` and `adj_area` (computed by the external
geometry library, hence oracle data of an arbitrary linearly ordered type),
and the `to_reduce` flag. -/
structure Bend (α : Type) where
  i : ℕ
  j : ℕ
  area : α
  adj_area : α
  to_reduce : Bool
deriving DecidableEq

/-- Set `bends[k].to_reduce = True`; identity when `k` is out of range. -/
def markToReduce {α : Type} : List (Bend α) → ℕ → List (Bend α)
  | [], _ => []
  | b :: bs, 0 => { b with to_reduce := true } :: bs
  | b :: bs, k + 1 => b :: markToReduce bs k

/-- Read `bends[k].to_reduce`, `false` when `k` is out of range. -/
def reduceFlag {α : Type} (bends : List (Bend α)) (k : ℕ) : Bool :=
  match bends.get? k with
  | some b => b.to_reduce
  | none => false

/-- One marking decision of `ReduceBend.flag_bend_to_reduce` for the bend at
index `i` (the `if len(lst_bends) == 1 / if i == start / elif i == end /
elif ...` cascade): mark the bend unless an adjacent bend is already marked;
a single candidate is marked unconditionally.  `lstLen` is the length of the
full candidate list, `last` the index of the last bend. -/
def flagStep {α : Type} (lstLen last : ℕ) (bends : List (Bend α)) (i : ℕ) :
    List (Bend α) :=
  if lstLen = 1 then markToReduce bends i
  else if i = 0 then
    (if reduceFlag bends (i + 1) then bends else markToReduce bends i)
  else if i = last then
    (if reduceFlag bends (i - 1) then bends else markToReduce bends i)
  else if reduceFlag bends (i - 1) || reduceFlag bends (i + 1) then bends
  else markToReduce bends i

/-- The marking loop of `ReduceBend.flag_bend_to_reduce`: walk the sorted
list of `(adj_area, index)` pairs; stop (`break`) at the first pair over the
minimum adjusted area; otherwise apply the marking decision. -/
def flagLoop {α : Type} [LinearOrder α] (min_adj_area : α) (lstLen last : ℕ) :
    List (Bend α) → List (α × ℕ) → List (Bend α)
  | bends, [] => bends
  | bends, (adj_area, i) :: rest =>
    if adj_area ≤ min_adj_area then
      flagLoop min_adj_area lstLen last (flagStep lstLen last bends i) rest
    else bends

/-- Embedding of `ReduceBend.flag_bend_to_reduce`.  For a closed line with at
least 3 bends the first and last bends are dropped (they sit on the pivot).
Candidates are the bends with `area < min_adj_area`, sorted ascending by
`adj_area` (stable sort, as in Python).  Returns the updated bend list and
the `is_simplest` flag (`True` when the bend list is empty). -/
def flag_bend_to_reduce {α : Type} [LinearOrder α] (min_adj_area : α)
    (is_closed : Bool) (bends0 : List (Bend α)) : List (Bend α) × Bool :=
  let bends := if is_closed ∧ 3 ≤ bends0.length
               then (bends0.drop 1).dropLast else bends0
  let lst := bends.enum.filterMap
    (fun p => if p.2.area < min_adj_area then some (p.2.adj_area, p.1) else none)
  let lstS := List.insertionSort (fun p q => p.1 ≤ q.1) lst
  let bends1 := flagLoop min_adj_area lstS.length (bends.length - 1) bends lstS
  (bends1, decide (bends1.length = 0))

/-- Binary orientation of a vertex angle, from `ReduceBend.detect_bends`:
`CLOCK_WISE if angle >= math.pi else ANTI_CLOCK_WISE`.  Generic over the
linearly ordered type of angles (the code compares IEEE doubles; theorems
instantiate `α := ℝ` and `pi := Real.pi`). -/
def orientation_of {α : Type} [LinearOrder α] (pi angle : α) : Int :=
  if pi ≤ angle then CLOCK_WISE else ANTI_CLOCK_WISE

/-- Python `len(set(orientation)) == 1`: the list is nonempty and all its
elements are equal. -/
def all_equal : List Int → Bool
  | [] => false
  | a :: rest => rest.all (fun x => x = a)

/-- The padding value prepended/appended by `detect_bends`:
`ANTI_CLOCK_WISE` if the element is `CLOCK_WISE`, `CLOCK_WISE` otherwise. -/
def oppositeOrientation (x : Int) : Int :=
  if x = CLOCK_WISE then ANTI_CLOCK_WISE else CLOCK_WISE

/-- Combinatorial core of `ReduceBend.detect_bends`, acting on the per-vertex
orientation list.  For a closed line, an all-equal orientation list is
emptied (convex ring, nothing to reduce) and otherwise its first entry (the
start/end vertex) is dropped.  A nonempty list is padded front and back with
the opposite orientation, inflexion points are the positions where the
orientation flips, and consecutive inflexion points `(i, i')` delimit the
bend `(i, i' + 1)`.  Returns the bend spans and the `is_simplest` flag
(`True` exactly when there is no inflexion). -/
def detect_bends_core (orientation0 : List Int) (is_closed : Bool) :
    List (ℕ × ℕ) × Bool :=
  let o1 := if is_closed then
              (if all_equal orientation0 then [] else orientation0.drop 1)
            else orientation0
  let o2 := if 1 ≤ o1.length then
              (oppositeOrientation (o1.headD 0) :: o1) ++
                [oppositeOrientation (o1.getLastD 0)]
            else o1
  let inflexion := (List.range (o2.length - 1)).filter
    (fun k => decide (o2.getD k 0 ≠ o2.getD (k + 1) 0))
  if inflexion.isEmpty then ([], true)
  else ((inflexion.zip inflexion.tail).map (fun p => (p.1, p.2 + 1)), false)

/-- Inner `while j - i >= 2` loop of `ReduceBend.find_alternate_bends`:
for a fixed `j`, the pairs `(i, j)` for `i = bend.i, bend.i + 1, ...` while
`j - i >= 2`. -/
def alternate_inner (bend_i j : ℕ) : List (ℕ × ℕ) :=
  (List.range' bend_i (j - 1 - bend_i)).map (fun i => (i, j))

/-- Outer `while j - 1 >= 2` loop of `ReduceBend.find_alternate_bends`:
`j` starts at `bend.j` and decreases while `j - 1 >= 2`, i.e. while
`3 ≤ j`. -/
def alternate_outer (bend_i : ℕ) : ℕ → List (ℕ × ℕ)
  | 0 => []
  | j + 1 =>
    if 3 ≤ j + 1 then alternate_inner bend_i (j + 1) ++ alternate_outer bend_i j
    else []

/-- Embedding of `ReduceBend.find_alternate_bends`: enumerate the candidate
sub-spans of the bend, then sort by descending polygon area (`areaOf` is the
external polygon-area oracle; Python sorts the `(area, bend)` pairs with
`reverse=True`, a stable descending sort). -/
def find_alternate_bends {α : Type} [LinearOrder α] (areaOf : ℕ × ℕ → α)
    (bend_i bend_j : ℕ) : List (ℕ × ℕ) :=
  List.insertionSort (fun p q => areaOf q ≤ areaOf p)
    (alternate_outer bend_i bend_j)

/-- Embedding of `ReduceBend.validate_spatial_constraints` for the bend at
one index.  Oracle parameters, all results of the external geometry library:
`sublineLenOk` is `qgs_geom_new_subline.length() >= ZERO_RELATIVE`;
`with_itself` / `with_others` are the same-path and other-path geometries
returned by the window query over the bend's bounding box;
`trimmedDisjoint b g` is `b.get_new_subline_trimmed(...).disjoint(g)`;
`sublineDisjoint g` is `g.disjoint(qgs_geom_new_subline)` for the original
bend's untrimmed chord; `bendContains g` is `bend.qgs_geom_bend.contains(g)`
for the original bend's polygon.  `alternates` is the output of
`find_alternate_bends`.  Returns the flag and the bend left at the index
(the original, or the substituted alternate).  When the chord is shorter
than `ZERO_RELATIVE` the simplicity check and the alternate search are
skipped entirely (the code only pushes an informational message). -/
def validate_spatial_constraints {α G : Type}
    (sublineLenOk : Bool) (with_itself with_others : List G)
    (trimmedDisjoint : Bend α → G → Bool)
    (sublineDisjoint : G → Bool) (bendContains : G → Bool)
    (alternates : List (Bend α)) (bend : Bend α) : Bool × Bend α :=
  let step1 : Bool × Bend α :=
    if sublineLenOk then
      if with_itself.all (fun g => trimmedDisjoint bend g) then (true, bend)
      else
        match alternates.find?
            (fun ab => with_itself.all (fun g => trimmedDisjoint ab g)) with
        | some ab => (true, ab)
        | none => (false, bend)
    else (true, bend)
  if step1.1 then
    if with_others.all (fun g => sublineDisjoint g) then
      if with_others.all (fun g => ! bendContains g) then (true, step1.2)
      else (false, step1.2)
    else (false, step1.2)
  else (false, step1.2)

/-- One-path state threaded through `ReduceBend.process_bends`: the vertex
list, the bend list (an alternate may be substituted at an index), the
`bends_reduced` records (chord endpoints, kept only when smoothing is on)
and the local count of bends reduced. -/
structure ProcessState (P α : Type) where
  pts : List P
  bends : List (Bend α)
  recs : List (P × P)
  nbr_bend_reduced : ℕ

/-- Loop body of `ReduceBend.process_bends` over the descending index list.
`validate ind b` is the embedded `validate_spatial_constraints` call sliced
to its decision (flag, bend left at the index).  On success the chord
endpoints are recorded (when smoothing), the interior vertices
`bend.i + 1 .. bend.j - 1` are deleted, and the counter incremented. -/
def process_bends_go {P α : Type} (validate : ℕ → Bend α → Bool × Bend α)
    (smooth_line : Bool) (d : P) (dB : Bend α) :
    List ℕ → ProcessState P α → ProcessState P α
  | [], st => st
  | ind :: rest, st =>
    if (st.bends.getD ind dB).to_reduce then
      if (validate ind (st.bends.getD ind dB)).1 then
        process_bends_go validate smooth_line d dB rest
          { pts := delete_vertex_points st.pts
              ((validate ind (st.bends.getD ind dB)).2.i + 1)
              ((validate ind (st.bends.getD ind dB)).2.j - 1)
            bends := st.bends.set ind (validate ind (st.bends.getD ind dB)).2
            recs := st.recs ++
              (if smooth_line
               then [(vertexAt st.pts (validate ind (st.bends.getD ind dB)).2.i d,
                      vertexAt st.pts (validate ind (st.bends.getD ind dB)).2.j d)]
               else [])
            nbr_bend_reduced := st.nbr_bend_reduced + 1 }
      else
        process_bends_go validate smooth_line d dB rest
          { st with
              bends :=
                st.bends.set ind (validate ind (st.bends.getD ind dB)).2 }
    else process_bends_go validate smooth_line d dB rest st

/-- Embedding of `ReduceBend.process_bends`: indices are visited from the
highest to the lowest (`reversed(range(len(bends)))`). -/
def process_bends {P α : Type} (validate : ℕ → Bend α → Bool × Bend α)
    (smooth_line : Bool) (d : P) (dB : Bend α)
    (pts : List P) (bends : List (Bend α)) : ProcessState P α :=
  process_bends_go validate smooth_line d dB
    (List.range bends.length).reverse
    { pts := pts, bends := bends, recs := [], nbr_bend_reduced := 0 }

/-- Embedding of `BendReduced.set_values`: when the chord is long enough
(`> diameter * 2/3`, external length oracle `chordLongEnough`), the chord
endpoints are re-located in the mutated path (`lookup`, the external
`closestVertex` within `ZERO_RELATIVE`); smoothing proceeds only when both
land on vertices, the two vertices are consecutive (`i + 1 = j`), and neither
is at a path extremity (`1 ≤ i` and `j ≤ numPoints - 2`).  Returns
`some (i, j)` exactly when `is_line_smoothable` ends up `True`. -/
def set_values {P : Type} (lookup : List P → P → Option ℕ)
    (chordLongEnough : Bool) (pts : List P) (p_start p_end : P) :
    Option (ℕ × ℕ) :=
  if chordLongEnough then
    match lookup pts p_start, lookup pts p_end with
    | some i, some j =>
      if i + 1 = j then
        if 1 ≤ i ∧ j ≤ pts.length - 2 then some (i, j) else none
      else none
    | _, _ => none
  else none

/-- Embedding of `ReduceBend.manage_smooth_line` acting on one path's vertex
list: for each recorded reduced bend, if it is smoothable, insert the two
interior control points of the 4-point smooth line (`ctrl`, the external
`calculate_smooth_line`, which always returns a 4-point line) via
`add_vertex`, and count the smoothed line. -/
def manage_smooth_line {P : Type} (lookup : List P → P → Option ℕ)
    (chordLongEnough : P → P → Bool) (ctrl : P → P → P × P) (d : P)
    (recs : List (P × P)) (pts0 : List P) : List P × ℕ :=
  recs.foldl
    (fun st r =>
      match set_values lookup (chordLongEnough r.1 r.2) st.1 r.1 r.2 with
      | some (i, j) =>
        (add_vertex_points st.1 j
          [vertexAt st.1 i d, (ctrl r.1 r.2).1, (ctrl r.1 r.2).2,
           vertexAt st.1 j d], st.2 + 1)
      | none => st)
    (pts0, 0)

/-- Embedding of the `while True` loop of `ReduceBend._manage_reduce_bend`.
`step` is one full pass over all geometries (pivot, detection, selection,
reduction), returning the new state and the number of bends reduced in the
pass; `nbr_pass` mirrors `self.rb_results.nbr_pass`.  The loop breaks when
`nbr_pass > min_nbr_pass and nbr_bend_reduced == 0`, otherwise increments
`nbr_pass`.  `fuel` bounds the recursion; `none` means the fuel ran out
before the loop exited.  On exit, returns the number of passes executed and
the final state. -/
def manage_reduce_bend_loop {σ : Type} (step : σ → σ × ℕ) (min_nbr_pass : ℕ) :
    ℕ → σ → ℕ → Option (ℕ × σ)
  | 0, _, _ => none
  | fuel + 1, s, nbr_pass =>
    let p := step s
    if min_nbr_pass < nbr_pass ∧ p.2 = 0 then some (nbr_pass + 1, p.1)
    else manage_reduce_bend_loop step min_nbr_pass fuel p.1 (nbr_pass + 1)

/-- The driver loop viewed through the per-pass reduction counts: pass `k`
reduces `f k` bends.  `min_nbr_pass = 1` is hard-coded in
`_manage_reduce_bend`. -/
def manage_reduce_bend_passes (f : ℕ → ℕ) (fuel : ℕ) : Option (ℕ × ℕ) :=
  manage_reduce_bend_loop (fun k => (k + 1, f k)) 1 fuel 0 0

/-- Well-formedness of a bend-span list as produced by `detect_bends`:
each bend spans at least two segments (`i + 2 ≤ j`) and consecutive bends
overlap in exactly one segment (`next.i + 1 = prev.j`). -/
def wfSpans : List (ℕ × ℕ) → Bool
  | [] => true
  | [p] => decide (p.1 + 2 ≤ p.2)
  | p :: q :: rest =>
    decide (p.1 + 2 ≤ p.2) && decide (q.1 + 1 = p.2) && wfSpans (q :: rest)

/-- Span projection of a bend record. -/
def spanOf {α : Type} (b : Bend α) : ℕ × ℕ :=
  (b.i, b.j)

/-- No two bends at adjacent positions of the bend list are both marked
`to_reduce`. -/
def noTwoAdjacentMarked {α : Type} (bends : List (Bend α)) : Prop :=
  ∀ k, ¬ (reduceFlag bends k = true ∧ reduceFlag bends (k + 1) = true)

/-! Helper lemmas. -/

theorem delete_segment_loop_not_true {E : Type} (matcher delOk : E → Bool)
    (entries : List E) (h : ∀ e ∈ entries, matcher e = false) :
    ∀ acc, acc ≠ some true →
      ∃ acc', delete_segment_loop matcher delOk entries acc = Except.ok acc' ∧
        acc' ≠ some true := by
  induction entries with
  | nil =>
    intro acc hacc
    exact ⟨acc, rfl, hacc⟩
  | cons e es ih =>
    intro acc _
    have he : matcher e = false := h e (List.mem_cons_self e es)
    have h' : ∀ x ∈ es, matcher x = false := fun x hx => h x (List.mem_cons_of_mem e hx)
    simpa [delete_segment_loop, he] using
      ih h' (some false) (by simp)

theorem length_delete_vertex_points_le {P : Type} (pts : List P) (s e : ℕ)
    (h : s ≤ e + 1) : (delete_vertex_points pts s e).length ≤ pts.length := by
  simp only [delete_vertex_points, List.length_append, List.length_take,
    List.length_drop]
  omega

theorem length_delete_vertex_points_lt {P : Type} (pts : List P) (s e : ℕ)
    (hse : s ≤ e) (hs : s < pts.length) :
    (delete_vertex_points pts s e).length < pts.length := by
  simp only [delete_vertex_points, List.length_append, List.length_take,
    List.length_drop]
  omega

theorem find?_eq_some_split {β : Type} {p : β → Bool} :
    ∀ {l : List β} {b : β}, l.find? p = some b →
      p b = true ∧ ∃ l1 l2, l = l1 ++ b :: l2 ∧ ∀ x ∈ l1, p x = false := by
  intro l
  induction l with
  | nil => intro b hb; simp [List.find?] at hb
  | cons a as ih =>
    intro b hb
    by_cases ha : p a = true
    · rw [List.find?_cons_of_pos _ ha] at hb
      cases hb
      exact ⟨ha, [], as, rfl, by simp⟩
    · have ha' : p a = false := by simpa using ha
      rw [List.find?_cons_of_neg _ ha] at hb
      obtain ⟨hpb, l1, l2, hsplit, hall⟩ := ih hb
      refine ⟨hpb, a :: l1, l2, by simp [hsplit], ?_⟩
      intro x hx
      rcases List.mem_cons.mp hx with hx | hx
      · subst hx; exact ha'
      · exact hall x hx

/-! Claim theorems. -/

/-- Claim C9: for positive area and perimeter, `calculate_adj_area` equals
`0.75 * perimeter ^ 2 / (4 * pi)` — the area argument cancels out, so the
adjusted area depends only on the bend's perimeter. -/
theorem c9_adj_area_depends_only_on_perimeter (area perimeter : ℝ)
    (ha : 0 < area) (hp : 0 < perimeter) :
    calculate_adj_area area perimeter = 0.75 * perimeter ^ 2 / (4 * Real.pi) := by
  have hpi : Real.pi ≠ 0 := ne_of_gt Real.pi_pos
  have ha' : area ≠ 0 := ne_of_gt ha
  have hp' : perimeter ≠ 0 := ne_of_gt hp
  rw [calculate_adj_area]
  field_simp
  ring

/-- Witness for C9 at `area = 1`, `perimeter = 2`. -/
theorem c9_adj_area_depends_only_on_perimeter_witness :
    calculate_adj_area 1 2 = 0.75 * 2 ^ 2 / (4 * Real.pi) :=
  c9_adj_area_depends_only_on_perimeter 1 2 (by norm_num) (by norm_num)

/-- Claim C5: when no candidate entry of the window query matches both
endpoints (including the case of no candidates at all), `_delete_segment`
raises: it reaches one of its `raise` sites (or the Python
`UnboundLocalError`) and never returns normally. -/
theorem c5_delete_segment_no_match_raises {E : Type}
    (matcher delOk : E → Bool) (entries : List E)
    (h : ∀ e ∈ entries, matcher e = false) :
    ∃ err, delete_segment matcher delOk entries = Except.error err := by
  obtain ⟨acc', hloop, hacc'⟩ :=
    delete_segment_loop_not_true matcher delOk entries h none (by simp)
  rw [delete_segment, hloop]
  match acc', hacc' with
  | none, _ => exact ⟨SegDeleteError.unboundLocalDeleted, rfl⟩
  | some false, _ => exact ⟨SegDeleteError.structureCorruption, rfl⟩
  | some true, hacc' => exact absurd rfl hacc'

/-- Witness for C5: two candidate entries, neither matching. -/
theorem c5_delete_segment_no_match_raises_witness :
    ∃ err, delete_segment (fun _ => false) (fun _ => true) [1, 2] =
      Except.error err :=
  c5_delete_segment_no_match_raises (fun _ => false) (fun _ => true) [1, 2]
    (by decide)

/-- Claim C10: when the replacement chord is shorter than the relative
epsilon (`sublineLenOk = false`), `validate_spatial_constraints` skips the
simplicity check and the alternate-bend search entirely: the result depends
only on the other-geometry disjointness and containment checks, and the bend
is never substituted, so such a bend is committed whenever those two checks
pass. -/
theorem c10_short_chord_skips_simplicity {α G : Type}
    (with_itself with_others : List G) (trimmedDisjoint : Bend α → G → Bool)
    (sublineDisjoint : G → Bool) (bendContains : G → Bool)
    (alternates : List (Bend α)) (bend : Bend α) :
    validate_spatial_constraints false with_itself with_others trimmedDisjoint
        sublineDisjoint bendContains alternates bend =
      ((with_others.all fun g => sublineDisjoint g) &&
        (with_others.all fun g => ! bendContains g), bend) := by
  cases h1 : with_others.all fun g => sublineDisjoint g <;>
    cases h2 : with_others.all fun g => ! bendContains g <;>
      simp [validate_spatial_constraints, h1, h2]

/-- Claim C1 counterexample: with a replacement chord shorter than the
relative epsilon (`sublineLenOk = false`), one same-path geometry in range
whose trimmed-chord disjointness test fails, and no alternates,
`validate_spatial_constraints` still approves the bend unchanged — so it is
not the case that approval implies the trimmed chord is disjoint from every
same-path segment in range or that an alternate was substituted. -/
theorem c1_simplicity_approval_counterexample :
    ¬ (((validate_spatial_constraints false [0] []
            (fun (_ : Bend ℚ) (_ : ℕ) => false) (fun _ => true)
            (fun _ => false) [] ⟨1, 3, 0, 0, true⟩).1 = true) →
        ((∀ g ∈ ([0] : List ℕ),
            (fun (_ : Bend ℚ) (_ : ℕ) => false)
              ((validate_spatial_constraints false [0] []
                (fun (_ : Bend ℚ) (_ : ℕ) => false) (fun _ => true)
                (fun _ => false) [] ⟨1, 3, 0, 0, true⟩).2) g = true) ∨
          (validate_spatial_constraints false [0] []
              (fun (_ : Bend ℚ) (_ : ℕ) => false) (fun _ => true)
              (fun _ => false) [] ⟨1, 3, 0, 0, true⟩).2 ≠
            (⟨1, 3, 0, 0, true⟩ : Bend ℚ))) := by
  decide

/-- Claim C1 as amended: provided the replacement chord is at least the
relative epsilon long (`sublineLenOk = true`), `validate_spatial_constraints`
approves a bend only if the trimmed chord of the bend left at the index is
disjoint from every same-path geometry returned by the window query, and
that bend is either the original bend or one of the enumerated alternates. -/
theorem c1_simplicity_approval_amended {α G : Type}
    (with_itself with_others : List G) (trimmedDisjoint : Bend α → G → Bool)
    (sublineDisjoint : G → Bool) (bendContains : G → Bool)
    (alternates : List (Bend α)) (bend final : Bend α)
    (h : validate_spatial_constraints true with_itself with_others
        trimmedDisjoint sublineDisjoint bendContains alternates bend =
      (true, final)) :
    (∀ g ∈ with_itself, trimmedDisjoint final g = true) ∧
      (final = bend ∨ final ∈ alternates) := by
  by_cases h1 : (with_itself.all fun g => trimmedDisjoint bend g) = true
  · cases h2 : with_others.all fun g => sublineDisjoint g <;>
      cases h3 : with_others.all fun g => ! bendContains g <;>
        simp [validate_spatial_constraints, h1, h2, h3] at h
    exact ⟨List.all_eq_true.mp (h ▸ h1), Or.inl h.symm⟩
  · have h1' : (with_itself.all fun g => trimmedDisjoint bend g) = false := by
      simpa using h1
    cases hf : alternates.find?
        (fun ab => with_itself.all fun g => trimmedDisjoint ab g) with
    | none => simp [validate_spatial_constraints, h1', hf] at h
    | some ab =>
      cases h2 : with_others.all fun g => sublineDisjoint g <;>
        cases h3 : with_others.all fun g => ! bendContains g <;>
          simp [validate_spatial_constraints, h1', hf, h2, h3] at h
      have hab : (with_itself.all fun g => trimmedDisjoint ab g) = true := by
        simpa using List.find?_some hf
      have hmem : ab ∈ alternates := List.mem_of_find?_eq_some hf
      subst h
      exact ⟨List.all_eq_true.mp hab, Or.inr hmem⟩

/-- Witness for the amended C1 at a concrete approving input. -/
theorem c1_simplicity_approval_amended_witness :
    (∀ g ∈ ([7] : List ℕ),
        (fun (_ : Bend ℚ) (_ : ℕ) => true) (⟨0, 2, 0, 0, true⟩ : Bend ℚ) g
          = true) ∧
      ((⟨0, 2, 0, 0, true⟩ : Bend ℚ) = ⟨0, 2, 0, 0, true⟩ ∨
        (⟨0, 2, 0, 0, true⟩ : Bend ℚ) ∈ ([] : List (Bend ℚ))) :=
  c1_simplicity_approval_amended [7] [] (fun _ _ => true) (fun _ => true)
    (fun _ => false) [] ⟨0, 2, 0, 0, true⟩ ⟨0, 2, 0, 0, true⟩ (by decide)

theorem manage_reduce_bend_passes_exit (f : ℕ → ℕ) :
    ∀ (fuel k n last : ℕ),
      manage_reduce_bend_loop (fun m => (m + 1, f m)) 1 fuel k k =
        some (n, last) →
      f (n - 1) = 0 ∧ k + 1 ≤ n ∧ 3 ≤ n := by
  intro fuel
  induction fuel with
  | zero => intro k n last h; simp [manage_reduce_bend_loop] at h
  | succ fl ih =>
    intro k n last h
    rw [manage_reduce_bend_loop] at h
    by_cases hcond : 1 < k ∧ f k = 0
    · rw [if_pos hcond] at h
      obtain ⟨h1, h2⟩ := Prod.mk.injEq .. ▸ Option.some.injEq .. ▸ h
      have hn : n = k + 1 := by
        cases h
        rfl
      subst hn
      exact ⟨by simpa using hcond.2, Nat.le_refl _, by omega⟩
    · rw [if_neg hcond] at h
      obtain ⟨h1, h2, h3⟩ := ih (k + 1) n last h
      exact ⟨h1, by omega, h3⟩

theorem manage_reduce_bend_passes_first_exit (f : ℕ → ℕ) (k : ℕ)
    (hk : 1 < k) (hzero : f k = 0)
    (hfirst : ∀ m, 1 < m → m < k → f m ≠ 0) :
    ∀ (fuel start : ℕ), start ≤ k → k - start < fuel →
      manage_reduce_bend_loop (fun m => (m + 1, f m)) 1 fuel start start =
        some (k + 1, k + 1) := by
  intro fuel
  induction fuel with
  | zero => intro start _ h; omega
  | succ fl ih =>
    intro start hstart hfuel
    rw [manage_reduce_bend_loop]
    by_cases heq : start = k
    · subst heq
      rw [if_pos ⟨hk, hzero⟩]
    · have hlt : start < k := by omega
      have hcond : ¬ (1 < start ∧ f start = 0) := by
        intro hc
        exact hfirst start hc.1 hlt hc.2
      rw [if_neg hcond]
      exact ih (start + 1) (by omega) (by omega)

/-- Claim C3: the driver loop (`_manage_reduce_bend`, with its hard-coded
minimum pass count `min_nbr_pass = 1`) exits only after a completed pass
reduced zero bends, runs at least one pass beyond the first even when the
first pass reduces zero bends, and exits immediately after the first
zero-reduction pass past the minimum (running no further passes). -/
theorem c3_driver_exit_conditions :
    (∀ (f : ℕ → ℕ) (fuel n last : ℕ),
        manage_reduce_bend_passes f fuel = some (n, last) →
        f (n - 1) = 0 ∧ 2 ≤ n) ∧
      (∀ (f : ℕ → ℕ) (k fuel : ℕ), 1 < k → f k = 0 →
        (∀ m, 1 < m → m < k → f m ≠ 0) → k < fuel →
        manage_reduce_bend_passes f fuel = some (k + 1, k + 1)) := by
  constructor
  · intro f fuel n last h
    obtain ⟨h1, -, h3⟩ := manage_reduce_bend_passes_exit f fuel 0 n last h
    exact ⟨h1, by omega⟩
  · intro f k fuel hk hzero hfirst hfuel
    exact manage_reduce_bend_passes_first_exit f k hk hzero hfirst fuel 0
      (by omega) (by omega)

/-- Witness for C3: with zero reductions in every pass, the loop runs
exactly 3 passes (pass indices 0, 1, 2) and exits. -/
theorem c3_driver_exit_conditions_witness :
    ((fun _ => 0 : ℕ → ℕ) (3 - 1) = 0 ∧ 2 ≤ 3) ∧
      manage_reduce_bend_passes (fun _ => 0) 10 = some (2 + 1, 2 + 1) :=
  ⟨c3_driver_exit_conditions.1 (fun _ => 0) 10 3 3 (by decide),
    c3_driver_exit_conditions.2 (fun _ => 0) 2 10 (by decide) (by decide)
      (fun m h1 h2 => absurd h2 (by omega)) (by decide)⟩

theorem manage_reduce_bend_loop_terminates {σ : Type} (step : σ → σ × ℕ)
    (measure : σ → ℕ)
    (hdec : ∀ s, 1 ≤ (step s).2 → measure (step s).1 < measure s) :
    ∀ (m : ℕ) (s : σ) (k fuel : ℕ), 2 ≤ k → measure s ≤ m → m < fuel →
      ∃ n sfin, manage_reduce_bend_loop step 1 fuel s k = some (n, sfin) ∧
        n ≤ k + m + 1 := by
  intro m
  induction m using Nat.strong_induction_on with
  | _ m ih =>
    intro s k fuel hk hm hfuel
    cases fuel with
    | zero => omega
    | succ fl =>
      rw [manage_reduce_bend_loop]
      by_cases hz : (step s).2 = 0
      · rw [if_pos ⟨by omega, hz⟩]
        exact ⟨k + 1, (step s).1, rfl, by omega⟩
      · rw [if_neg (by intro hc; exact hz hc.2)]
        have hlt : measure (step s).1 < measure s := hdec s (by omega)
        obtain ⟨n, sfin, hloop, hn⟩ :=
          ih (measure (step s).1) (by omega) (step s).1 (k + 1) fl (by omega)
            (Nat.le_refl _) (by omega)
        exact ⟨n, sfin, hloop, by omega⟩

/-- Claim C8: deleting a bend's interior vertices strictly decreases the
vertex count (and never increases it), and therefore the driver loop
terminates: for any pass step whose reduction count forces a strict decrease
of the total vertex count and which never increases it, the loop exits
within `total vertex count + 3` passes (3 = the constant forced by the two
minimum passes plus the final zero-reduction pass). -/
theorem c8_driver_terminates_bounded :
    (∀ {P : Type} (pts : List P) (s e : ℕ), s ≤ e → s < pts.length →
        (delete_vertex_points pts s e).length < pts.length) ∧
      (∀ {P : Type} (pts : List P) (s e : ℕ), s ≤ e + 1 →
        (delete_vertex_points pts s e).length ≤ pts.length) ∧
      (∀ {σ : Type} (step : σ → σ × ℕ) (measure : σ → ℕ),
        (∀ s, 1 ≤ (step s).2 → measure (step s).1 < measure s) →
        (∀ s, measure (step s).1 ≤ measure s) →
        ∀ s0 : σ, ∃ n sfin,
          manage_reduce_bend_loop step 1 (measure s0 + 3) s0 0 =
            some (n, sfin) ∧ n ≤ measure s0 + 3) := by
  refine ⟨?_, ?_, ?_⟩
  · intro P pts s e hse hs
    exact length_delete_vertex_points_lt pts s e hse hs
  · intro P pts s e hse
    exact length_delete_vertex_points_le pts s e hse
  · intro σ step measure hdec hmono s0
    have h0 : ¬ (1 < 0 ∧ (step s0).2 = 0) := by omega
    have h1 : ¬ (1 < 1 ∧ (step (step s0).1).2 = 0) := by omega
    rw [show measure s0 + 3 = (measure s0 + 2) + 1 from rfl,
      manage_reduce_bend_loop, if_neg h0,
      show measure s0 + 2 = (measure s0 + 1) + 1 from rfl,
      manage_reduce_bend_loop, if_neg h1]
    have hm2 : measure (step (step s0).1).1 ≤ measure s0 :=
      le_trans (hmono (step s0).1) (hmono s0)
    obtain ⟨n, sfin, hloop, hn⟩ :=
      manage_reduce_bend_loop_terminates step measure hdec (measure s0)
        (step (step s0).1).1 2 (measure s0 + 1) (by omega) hm2 (by omega)
    exact ⟨n, sfin, hloop, by omega⟩

/-- Witness for C8: the vertex-count lemmas at a concrete list, and the
driver bound at a concrete one-state system with zero reductions. -/
theorem c8_driver_terminates_bounded_witness :
    ((delete_vertex_points [10, 20, 30] 1 1).length < 3) ∧
      ((delete_vertex_points [10, 20, 30] 1 1).length ≤ 3) ∧
      (∃ n sfin, manage_reduce_bend_loop
          (fun (s : Fin 1) => (s, 0)) 1 ((fun (_ : Fin 1) => 0) 0 + 3) 0 0 =
            some (n, sfin) ∧ n ≤ (fun (_ : Fin 1) => 0) 0 + 3) :=
  ⟨c8_driver_terminates_bounded.1 [10, 20, 30] 1 1 (by decide) (by decide),
    c8_driver_terminates_bounded.2.1 [10, 20, 30] 1 1 (by decide),
    c8_driver_terminates_bounded.2.2 (fun s => (s, 0)) (fun _ => 0)
      (by intro s h; simp at h) (fun s => Nat.le_refl _) 0⟩

theorem mem_alternate_inner (bend_i j : ℕ) (p : ℕ × ℕ) :
    p ∈ alternate_inner bend_i j ↔
      bend_i ≤ p.1 ∧ p.1 + 2 ≤ j ∧ p.2 = j := by
  simp only [alternate_inner, List.mem_map, List.mem_range'_1]
  constructor
  · rintro ⟨i, ⟨hi1, hi2⟩, rfl⟩
    refine ⟨hi1, ?_, rfl⟩
    omega
  · rintro ⟨h1, h2, h3⟩
    exact ⟨p.1, ⟨h1, by omega⟩, by rw [← h3]⟩

theorem mem_alternate_outer (bend_i : ℕ) :
    ∀ (J : ℕ) (p : ℕ × ℕ),
      p ∈ alternate_outer bend_i J ↔
        bend_i ≤ p.1 ∧ p.1 + 2 ≤ p.2 ∧ 3 ≤ p.2 ∧ p.2 ≤ J := by
  intro J
  induction J with
  | zero => intro p; simp [alternate_outer]; omega
  | succ j ih =>
    intro p
    rw [alternate_outer]
    by_cases h3 : 3 ≤ j + 1
    · rw [if_pos h3]
      simp only [List.mem_append, mem_alternate_inner, ih]
      constructor
      · rintro (⟨h1, h2, h4⟩ | ⟨h1, h2, h4, h5⟩)
        · exact ⟨h1, by omega, by omega, by omega⟩
        · exact ⟨h1, h2, h4, by omega⟩
      · rintro ⟨h1, h2, h4, h5⟩
        by_cases hj : p.2 = j + 1
        · exact Or.inl ⟨h1, by omega, hj⟩
        · exact Or.inr ⟨h1, h2, h4, by omega⟩
    · rw [if_neg h3]
      simp only [List.not_mem_nil, false_iff]
      omega

/-- Claim C6 counterexample: the sub-range `(0, 2)` lies within the span of
a bend with `bend.i = 0`, `bend.j = 3` and has span length `2 - 0 ≥ 2`, yet
`find_alternate_bends` never enumerates it: the outer loop
`while j - 1 >= 2` stops at `j = 3`, so sub-ranges ending at `j = 2` are
skipped. -/
theorem c6_alternate_enumeration_counterexample :
    (0 ≤ 0 ∧ 2 ≤ 3 ∧ 2 - 0 ≥ 2) ∧
      (0, 2) ∉ find_alternate_bends (fun _ => (0 : ℚ)) 0 3 := by
  refine ⟨by decide, ?_⟩
  rw [find_alternate_bends, (List.perm_insertionSort _ _).mem_iff,
    mem_alternate_outer]
  decide

/-- Claim C6 as amended: `find_alternate_bends` enumerates exactly the
`(i, j)` sub-ranges of the original bend's span with span length at least 2
and additionally `3 ≤ j` (ranges ending before index 3 are skipped by the
outer loop); the list is sorted by descending polygon area; and when the
simplicity check fails for the original bend, the bend left at the index is
the first enumerated alternate whose trimmed chord is disjoint from every
same-path geometry in range. -/
theorem c6_alternate_enumeration_amended {α : Type} [LinearOrder α] :
    (∀ (areaOf : ℕ × ℕ → α) (bend_i bend_j : ℕ) (p : ℕ × ℕ),
        p ∈ find_alternate_bends areaOf bend_i bend_j ↔
          bend_i ≤ p.1 ∧ p.1 + 2 ≤ p.2 ∧ 3 ≤ p.2 ∧ p.2 ≤ bend_j) ∧
      (∀ (areaOf : ℕ × ℕ → α) (bend_i bend_j : ℕ),
        (find_alternate_bends areaOf bend_i bend_j).Pairwise
          (fun p q => areaOf q ≤ areaOf p)) ∧
      (∀ {G : Type} (with_itself with_others : List G)
          (trimmedDisjoint : Bend α → G → Bool) (sublineDisjoint : G → Bool)
          (bendContains : G → Bool) (alternates : List (Bend α))
          (bend ab : Bend α),
        (with_itself.all fun g => trimmedDisjoint bend g) = false →
        alternates.find?
            (fun x => with_itself.all fun g => trimmedDisjoint x g) =
          some ab →
        (validate_spatial_constraints true with_itself with_others
            trimmedDisjoint sublineDisjoint bendContains alternates
            bend).2 = ab ∧
          (with_itself.all fun g => trimmedDisjoint ab g) = true ∧
          ∃ l1 l2, alternates = l1 ++ ab :: l2 ∧
            ∀ x ∈ l1,
              (with_itself.all fun g => trimmedDisjoint x g) = false) := by
  refine ⟨?_, ?_, ?_⟩
  · intro areaOf bend_i bend_j p
    rw [find_alternate_bends, (List.perm_insertionSort _ _).mem_iff,
      mem_alternate_outer]
  · intro areaOf bend_i bend_j
    haveI : IsTotal (ℕ × ℕ) (fun p q => areaOf q ≤ areaOf p) :=
      ⟨fun a b => le_total (areaOf b) (areaOf a)⟩
    haveI : IsTrans (ℕ × ℕ) (fun p q => areaOf q ≤ areaOf p) :=
      ⟨fun _ _ _ h1 h2 => le_trans h2 h1⟩
    exact List.sorted_insertionSort _ (alternate_outer bend_i bend_j)
  · intro G with_itself with_others trimmedDisjoint sublineDisjoint
      bendContains alternates bend ab hfail hfind
    obtain ⟨hab, l1, l2, hsplit, hall⟩ := find?_eq_some_split hfind
    refine ⟨?_, by simpa using hab, l1, l2, hsplit, fun x hx => ?_⟩
    · cases h2 : with_others.all fun g => sublineDisjoint g <;>
        cases h3 : with_others.all fun g => ! bendContains g <;>
          simp [validate_spatial_constraints, hfail, hfind, h2, h3]
    · simpa using hall x hx

/-- Witness for the amended C6 at concrete inputs. -/
theorem c6_alternate_enumeration_amended_witness :
    ((1, 3) ∈ find_alternate_bends (fun _ => (0 : ℚ)) 0 3 ↔
        0 ≤ 1 ∧ 1 + 2 ≤ 3 ∧ 3 ≤ 3 ∧ 3 ≤ 3) ∧
      ((validate_spatial_constraints true [5] []
          (fun (b : Bend ℚ) (_ : ℕ) => decide (b.i + b.j = 2)) (fun _ => true)
          (fun _ => false) [⟨0, 2, 0, 0, false⟩] ⟨0, 3, 0, 0, true⟩).2 =
            ⟨0, 2, 0, 0, false⟩ ∧
        (([5] : List ℕ).all fun g =>
            (fun (b : Bend ℚ) (_ : ℕ) => decide (b.i + b.j = 2))
              ⟨0, 2, 0, 0, false⟩ g) = true ∧
        ∃ l1 l2, [(⟨0, 2, 0, 0, false⟩ : Bend ℚ)] =
            l1 ++ (⟨0, 2, 0, 0, false⟩ : Bend ℚ) :: l2 ∧
          ∀ x ∈ l1, (([5] : List ℕ).all fun g =>
              (fun (b : Bend ℚ) (_ : ℕ) => decide (b.i + b.j = 2)) x g) =
            false) :=
  ⟨c6_alternate_enumeration_amended.1 (fun _ => (0 : ℚ)) 0 3 (1, 3),
    c6_alternate_enumeration_amended.2.2 [5] []
      (fun b _ => decide (b.i + b.j = 2)) (fun _ => true) (fun _ => false)
      [⟨0, 2, 0, 0, false⟩] ⟨0, 3, 0, 0, true⟩ ⟨0, 2, 0, 0, false⟩
      (by decide) (by decide)⟩

theorem all_equal_of_same (angles : List ℝ) (o : Int) (hne : angles ≠ [])
    (hsame : ∀ a ∈ angles, orientation_of Real.pi a = o) :
    all_equal (angles.map fun a => orientation_of Real.pi a) = true := by
  cases angles with
  | nil => exact absurd rfl hne
  | cons x xs =>
    simp only [List.map_cons, all_equal, List.all_eq_true]
    intro y hy
    obtain ⟨a, ha, rfl⟩ := List.mem_map.mp hy
    have h1 := hsame a (List.mem_cons_of_mem x ha)
    have h2 := hsame x (List.mem_cons_self x xs)
    simp [h1, h2]

/-- Claim C7: bend detection classifies a vertex angle as clockwise exactly
when the angle is at least pi, and for a closed path whose vertex angles all
have the same binary orientation, `detect_bends` records zero bends and
marks the path simplest. -/
theorem c7_detect_bends_same_orientation (angles : List ℝ) (o : Int)
    (hne : angles ≠ []) (hsame : ∀ a ∈ angles, orientation_of Real.pi a = o) :
    detect_bends_core (angles.map fun a => orientation_of Real.pi a) true =
        ([], true) ∧
      ∀ a : ℝ, orientation_of Real.pi a = CLOCK_WISE ↔ Real.pi ≤ a := by
  constructor
  · have hall := all_equal_of_same angles o hne hsame
    simp [detect_bends_core, hall]
  · intro a
    by_cases h : Real.pi ≤ a <;>
      simp [orientation_of, CLOCK_WISE, ANTI_CLOCK_WISE, h]

/-- Witness for C7: a closed path whose only angle is `0`, classified
anti-clockwise since `0 < pi`. -/
theorem c7_detect_bends_same_orientation_witness :
    detect_bends_core ([(0 : ℝ)].map fun a => orientation_of Real.pi a)
        true = ([], true) ∧
      ∀ a : ℝ, orientation_of Real.pi a = CLOCK_WISE ↔ Real.pi ≤ a :=
  c7_detect_bends_same_orientation [0] ANTI_CLOCK_WISE (by simp)
    (fun a ha => by
      have h0 : a = 0 := by simpa using ha
      subst h0
      simp [orientation_of, ANTI_CLOCK_WISE, (Real.pi_pos).not_le])

theorem length_markToReduce {α : Type} :
    ∀ (bends : List (Bend α)) (i : ℕ),
      (markToReduce bends i).length = bends.length := by
  intro bends
  induction bends with
  | nil => intro i; rfl
  | cons b bs ih =>
    intro i
    cases i with
    | zero => rfl
    | succ k => simp [markToReduce, ih k]

theorem map_spanOf_markToReduce {α : Type} :
    ∀ (bends : List (Bend α)) (i : ℕ),
      (markToReduce bends i).map spanOf = bends.map spanOf := by
  intro bends
  induction bends with
  | nil => intro i; rfl
  | cons b bs ih =>
    intro i
    cases i with
    | zero => simp [markToReduce, spanOf]
    | succ k => simp [markToReduce, ih k]

theorem reduceFlag_oob {α : Type} (bends : List (Bend α)) (k : ℕ)
    (h : bends.length ≤ k) : reduceFlag bends k = false := by
  rw [reduceFlag, List.get?_eq_none.mpr h]

theorem reduceFlag_markToReduce_ne {α : Type} :
    ∀ (bends : List (Bend α)) (i k : ℕ), k ≠ i →
      reduceFlag (markToReduce bends i) k = reduceFlag bends k := by
  intro bends
  induction bends with
  | nil => intro i k _; rfl
  | cons b bs ih =>
    intro i k hk
    cases i with
    | zero =>
      cases k with
      | zero => exact absurd rfl hk
      | succ k' => rfl
    | succ i' =>
      cases k with
      | zero => rfl
      | succ k' => exact ih i' k' (by omega)

theorem reduceFlag_markToReduce_cases {α : Type} (bends : List (Bend α))
    (i k : ℕ) (h : reduceFlag (markToReduce bends i) k = true) :
    k = i ∨ reduceFlag bends k = true := by
  by_cases hki : k = i
  · exact Or.inl hki
  · right
    rwa [reduceFlag_markToReduce_ne bends i k hki] at h

theorem noTwoAdjacentMarked_markToReduce {α : Type} (bends : List (Bend α))
    (i : ℕ) (h : noTwoAdjacentMarked bends)
    (hnext : reduceFlag bends (i + 1) = false)
    (hprev : i = 0 ∨ reduceFlag bends (i - 1) = false) :
    noTwoAdjacentMarked (markToReduce bends i) := by
  intro k hk
  obtain ⟨hk1, hk2⟩ := hk
  by_cases hki : k = i
  · have hne : k + 1 ≠ i := by omega
    rw [reduceFlag_markToReduce_ne bends i (k + 1) hne,
      show k + 1 = i + 1 by omega, hnext] at hk2
    exact absurd hk2 (by simp)
  · by_cases hki' : k + 1 = i
    · rcases hprev with h0 | hp
      · omega
      · rw [reduceFlag_markToReduce_ne bends i k hki] at hk1
        have hkeq : k = i - 1 := by omega
        rw [hkeq, hp] at hk1
        exact absurd hk1 (by simp)
    · rw [reduceFlag_markToReduce_ne bends i k hki] at hk1
      rw [reduceFlag_markToReduce_ne bends i (k + 1) hki'] at hk2
      exact h k ⟨hk1, hk2⟩

theorem length_flagStep {α : Type} (lstLen last : ℕ) (bends : List (Bend α))
    (i : ℕ) : (flagStep lstLen last bends i).length = bends.length := by
  rw [flagStep]
  split_ifs <;> simp [length_markToReduce]

theorem map_spanOf_flagStep {α : Type} (lstLen last : ℕ)
    (bends : List (Bend α)) (i : ℕ) :
    (flagStep lstLen last bends i).map spanOf = bends.map spanOf := by
  rw [flagStep]
  split_ifs <;> simp [map_spanOf_markToReduce]

theorem noTwoAdjacentMarked_flagStep {α : Type} (lstLen last : ℕ)
    (bends : List (Bend α)) (i : ℕ) (hL : lstLen ≠ 1)
    (hlast : last = bends.length - 1) (h : noTwoAdjacentMarked bends) :
    noTwoAdjacentMarked (flagStep lstLen last bends i) := by
  rw [flagStep, if_neg hL]
  by_cases h0 : i = 0
  · rw [if_pos h0]
    cases hn : reduceFlag bends (i + 1) with
    | true => simpa [hn] using h
    | false =>
      simpa using noTwoAdjacentMarked_markToReduce bends i h hn (Or.inl h0)
  · rw [if_neg h0]
    by_cases hl : i = last
    · rw [if_pos hl]
      cases hp : reduceFlag bends (i - 1) with
      | true => simpa [hp] using h
      | false =>
        have hnext : reduceFlag bends (i + 1) = false := by
          apply reduceFlag_oob
          omega
        simpa using noTwoAdjacentMarked_markToReduce bends i h hnext (Or.inr hp)
    · rw [if_neg hl]
      cases hor : reduceFlag bends (i - 1) || reduceFlag bends (i + 1) with
      | true => simpa [hor] using h
      | false =>
        obtain ⟨hp, hn⟩ := Bool.or_eq_false_iff.mp hor
        simpa using noTwoAdjacentMarked_markToReduce bends i h hn (Or.inr hp)

theorem noTwoAdjacentMarked_flagLoop {α : Type} [LinearOrder α]
    (min_adj_area : α) (lstLen : ℕ) :
    ∀ (lst : List (α × ℕ)) (bends : List (Bend α)) (last : ℕ),
      lstLen ≠ 1 → last = bends.length - 1 → noTwoAdjacentMarked bends →
      noTwoAdjacentMarked (flagLoop min_adj_area lstLen last bends lst) := by
  intro lst
  induction lst with
  | nil => intro bends last _ _ h; exact h
  | cons p rest ih =>
    intro bends last hL hlast h
    obtain ⟨adj, i⟩ := p
    rw [flagLoop]
    split_ifs with hadj
    · exact ih (flagStep lstLen last bends i) last hL
        (by rw [length_flagStep]; exact hlast)
        (noTwoAdjacentMarked_flagStep lstLen last bends i hL hlast h)
    · exact h

theorem map_spanOf_flagLoop {α : Type} [LinearOrder α] (min_adj_area : α)
    (lstLen last : ℕ) :
    ∀ (lst : List (α × ℕ)) (bends : List (Bend α)),
      (flagLoop min_adj_area lstLen last bends lst).map spanOf =
        bends.map spanOf := by
  intro lst
  induction lst with
  | nil => intro bends; rfl
  | cons p rest ih =>
    intro bends
    obtain ⟨adj, i⟩ := p
    rw [flagLoop]
    split_ifs with hadj
    · rw [ih, map_spanOf_flagStep]
    · rfl

theorem reduceFlag_of_all_unmarked {α : Type} (bends : List (Bend α))
    (h : bends.all (fun b => ! b.to_reduce) = true) (k : ℕ) :
    reduceFlag bends k = false := by
  rw [reduceFlag]
  cases hg : bends.get? k with
  | none => rfl
  | some b =>
    have hb := List.all_eq_true.mp h b (List.get?_mem hg)
    simpa using hb

theorem noTwoAdjacentMarked_flag_result {α : Type} [LinearOrder α]
    (min_adj_area : α) (lstS : List (α × ℕ)) (bends : List (Bend α))
    (hunm : ∀ k, reduceFlag bends k = false) :
    noTwoAdjacentMarked
      (flagLoop min_adj_area lstS.length (bends.length - 1) bends lstS) := by
  have hnoadj : noTwoAdjacentMarked bends := by
    intro k hk
    rw [hunm k] at hk
    exact absurd hk.1 (by simp)
  by_cases hL : lstS.length = 1
  · obtain ⟨x, hx⟩ := List.length_eq_one.mp hL
    subst hx
    obtain ⟨adj, i⟩ := x
    rw [flagLoop]
    split_ifs with hadj
    · rw [flagLoop, flagStep, if_pos (by simp)]
      intro k hk
      obtain ⟨hk1, hk2⟩ := hk
      rcases reduceFlag_markToReduce_cases bends i k hk1 with heq1 | hf1
      · rcases reduceFlag_markToReduce_cases bends i (k + 1) hk2 with heq2 | hf2
        · omega
        · rw [hunm (k + 1)] at hf2
          exact absurd hf2 (by simp)
      · rw [hunm k] at hf1
        exact absurd hf1 (by simp)
    · exact hnoadj
  · exact noTwoAdjacentMarked_flagLoop min_adj_area lstS.length lstS bends
      (bends.length - 1) hL rfl hnoadj

theorem length_flagLoop {α : Type} [LinearOrder α] (min_adj_area : α)
    (lstLen last : ℕ) :
    ∀ (lst : List (α × ℕ)) (bends : List (Bend α)),
      (flagLoop min_adj_area lstLen last bends lst).length = bends.length := by
  intro lst
  induction lst with
  | nil => intro bends; rfl
  | cons p rest ih =>
    intro bends
    obtain ⟨adj, i⟩ := p
    rw [flagLoop]
    split_ifs with hadj
    · rw [ih, length_flagStep]
    · rfl

theorem wfSpans_cons_cons {p q : ℕ × ℕ} {rest : List (ℕ × ℕ)} :
    wfSpans (p :: q :: rest) = true ↔
      p.1 + 2 ≤ p.2 ∧ q.1 + 1 = p.2 ∧ wfSpans (q :: rest) = true := by
  simp [wfSpans, Bool.and_eq_true, decide_eq_true_eq, and_assoc]

theorem wfSpans_consecutive (d : ℕ × ℕ) :
    ∀ (l : List (ℕ × ℕ)), wfSpans l = true → ∀ k, k + 1 < l.length →
      (l.getD (k + 1) d).1 + 1 = (l.getD k d).2 := by
  intro l
  induction l with
  | nil => intro _ k hk; simp at hk
  | cons p tl ih =>
    intro hwf k hk
    cases tl with
    | nil => simp at hk
    | cons q rest =>
      obtain ⟨h1, h2, h3⟩ := wfSpans_cons_cons.mp hwf
      cases k with
      | zero => simpa [List.getD_cons_succ, List.getD_cons_zero] using h2
      | succ k' =>
        have hk' : k' + 1 < (q :: rest).length := by
          simpa using hk
        simpa [List.getD_cons_succ] using ih h3 k' hk'

theorem wfSpans_width (d : ℕ × ℕ) :
    ∀ (l : List (ℕ × ℕ)), wfSpans l = true → ∀ k, k < l.length →
      (l.getD k d).1 + 2 ≤ (l.getD k d).2 := by
  intro l
  induction l with
  | nil => intro _ k hk; simp at hk
  | cons p tl ih =>
    intro hwf k hk
    cases tl with
    | nil =>
      have hk0 : k = 0 := by simpa using hk
      subst hk0
      simpa [List.getD_cons_zero, wfSpans] using hwf
    | cons q rest =>
      obtain ⟨h1, h2, h3⟩ := wfSpans_cons_cons.mp hwf
      cases k with
      | zero => simpa [List.getD_cons_zero] using h1
      | succ k' =>
        have hk' : k' < (q :: rest).length := by simpa using hk
        simpa [List.getD_cons_succ] using ih h3 k' hk'

theorem wfSpans_mono (d : ℕ × ℕ) (l : List (ℕ × ℕ)) (hwf : wfSpans l = true) :
    ∀ (n k : ℕ), k ≤ n → n < l.length →
      (l.getD k d).1 + (n - k) ≤ (l.getD n d).1 := by
  intro n
  induction n with
  | zero =>
    intro k hk _
    have hk0 : k = 0 := by omega
    subst hk0
    simp
  | succ n' ih =>
    intro k hk hlen
    by_cases hkn : k = n' + 1
    · subst hkn; simp
    · have h1 := ih k (by omega) (by omega)
      have hc := wfSpans_consecutive d l hwf n' (by omega)
      have hw := wfSpans_width d l hwf n' (by omega)
      omega

theorem wfSpans_gap (d : ℕ × ℕ) (l : List (ℕ × ℕ)) (hwf : wfSpans l = true)
    (k n : ℕ) (hkn : k + 2 ≤ n) (hlen : n < l.length) :
    (l.getD k d).2 ≤ (l.getD n d).1 := by
  have hc := wfSpans_consecutive d l hwf k (by omega)
  have hm := wfSpans_mono d l hwf n (k + 1) (by omega) hlen
  omega

theorem wfSpans_drop_one (l : List (ℕ × ℕ)) (h : wfSpans l = true) :
    wfSpans (l.drop 1) = true := by
  cases l with
  | nil => simpa using h
  | cons p tl =>
    cases tl with
    | nil => rfl
    | cons q rest =>
      exact (wfSpans_cons_cons.mp h).2.2

theorem wfSpans_dropLast :
    ∀ (l : List (ℕ × ℕ)), wfSpans l = true → wfSpans l.dropLast = true := by
  intro l
  induction l with
  | nil => intro h; simpa using h
  | cons p tl ih =>
    intro h
    cases tl with
    | nil => rfl
    | cons q rest =>
      obtain ⟨h1, h2, h3⟩ := wfSpans_cons_cons.mp h
      have ih' := ih h3
      cases rest with
      | nil => simpa [wfSpans] using h1
      | cons r rs =>
        have he : (p :: q :: r :: rs).dropLast =
            p :: (q :: r :: rs).dropLast := rfl
        have hd : (q :: r :: rs).dropLast = q :: (r :: rs).dropLast := rfl
        rw [he, hd]
        rw [hd] at ih'
        exact wfSpans_cons_cons.mpr ⟨h1, h2, ih'⟩

theorem getD_map_spanOf {α : Type} (l : List (Bend α)) (k : ℕ) (d : Bend α) :
    (l.map spanOf).getD k (spanOf d) = spanOf (l.getD k d) := by
  rw [List.getD_eq_get?, List.getD_eq_get?, List.get?_map]
  cases l.get? k <;> rfl

theorem lt_length_of_reduceFlag {α : Type} (bends : List (Bend α)) (k : ℕ)
    (h : reduceFlag bends k = true) : k < bends.length := by
  by_contra hc
  rw [reduceFlag_oob bends k (by omega)] at h
  exact absurd h (by simp)

theorem chain_lt_of_filter_range (n : ℕ) (p : ℕ → Bool) :
    List.Chain' (· < ·) ((List.range n).filter p) :=
  List.Pairwise.chain'
    (List.Pairwise.sublist (List.filter_sublist (List.range n))
      (List.pairwise_lt_range n))

theorem wfSpans_zip_tail :
    ∀ (l : List ℕ), List.Chain' (· < ·) l →
      wfSpans ((l.zip l.tail).map fun p => (p.1, p.2 + 1)) = true := by
  intro l
  induction l with
  | nil => intro _; rfl
  | cons a tl ih =>
    intro hch
    cases tl with
    | nil => rfl
    | cons b rest =>
      obtain ⟨hab, hch'⟩ := List.chain'_cons.mp hch
      have ih' := ih hch'
      cases rest with
      | nil =>
        show wfSpans [(a, b + 1)] = true
        simp only [wfSpans, decide_eq_true_eq]
        show a + 2 ≤ b + 1
        omega
      | cons r rs =>
        show wfSpans ((a, b + 1) :: (b, r + 1) ::
          (((r :: rs).zip rs).map fun p => (p.1, p.2 + 1))) = true
        refine wfSpans_cons_cons.mpr ⟨?_, rfl, ?_⟩
        · show a + 2 ≤ b + 1
          omega
        · exact ih'

theorem all_of_sublist {β : Type} {p : β → Bool} {l' l : List β}
    (hs : l'.Sublist l) (h : l.all p = true) : l'.all p = true :=
  List.all_eq_true.mpr fun x hx => List.all_eq_true.mp h x (hs.subset hx)

theorem wfSpans_detect_bends_core (o : List Int) (c : Bool) :
    wfSpans (detect_bends_core o c).1 = true := by
  simp only [detect_bends_core]
  repeat' split
  all_goals
    first
      | rfl
      | exact wfSpans_zip_tail _ (chain_lt_of_filter_range _ _)

theorem flag_result_props {α : Type} [LinearOrder α] (min_adj_area : α)
    (lstS : List (α × ℕ)) (trimmed : List (Bend α)) (dB : Bend α)
    (hunm : ∀ k, reduceFlag trimmed k = false)
    (hwf : wfSpans (trimmed.map spanOf) = true) :
    noTwoAdjacentMarked
        (flagLoop min_adj_area lstS.length (trimmed.length - 1) trimmed lstS) ∧
      ∀ k l : ℕ, k < l →
        reduceFlag (flagLoop min_adj_area lstS.length (trimmed.length - 1)
          trimmed lstS) k = true →
        reduceFlag (flagLoop min_adj_area lstS.length (trimmed.length - 1)
          trimmed lstS) l = true →
        ((flagLoop min_adj_area lstS.length (trimmed.length - 1) trimmed
            lstS).getD k dB).j ≤
          ((flagLoop min_adj_area lstS.length (trimmed.length - 1) trimmed
            lstS).getD l dB).i := by
  have hnoadj := noTwoAdjacentMarked_flag_result min_adj_area lstS trimmed hunm
  refine ⟨hnoadj, ?_⟩
  intro k l hkl hfk hfl
  have hkl2 : k + 2 ≤ l := by
    rcases Nat.lt_or_ge l (k + 2) with hsmall | hbig
    · have hl : l = k + 1 := by omega
      rw [hl] at hfl
      exact absurd ⟨hfk, hfl⟩ (hnoadj k)
    · exact hbig
  have hmap := map_spanOf_flagLoop min_adj_area lstS.length
    (trimmed.length - 1) lstS trimmed
  have hwfres : wfSpans ((flagLoop min_adj_area lstS.length
      (trimmed.length - 1) trimmed lstS).map spanOf) = true := by
    rw [hmap]; exact hwf
  have hlen := lt_length_of_reduceFlag _ l hfl
  have hgap := wfSpans_gap (spanOf dB) _ hwfres k l hkl2 (by simpa using hlen)
  rw [getD_map_spanOf, getD_map_spanOf] at hgap
  exact hgap

/-- Claim C2 counterexample: on an open 5-vertex path with three detected
bends spanning `(0,2)`, `(1,3)`, `(2,4)` (of areas 1, 5, 2 against minimum
adjusted area 3), `flag_bend_to_reduce` marks the non-adjacent bends 0 and 2,
which share the boundary vertex `2` (`bends[0].j = bends[2].i`); a pass of
`process_bends` then reduces both, and the recorded chords share the
boundary point `(2, 0)` — refuting "no two bends reduced on the same path
share a boundary vertex". -/
theorem c2_adjacent_exclusion_counterexample :
    (reduceFlag (flag_bend_to_reduce (3 : ℚ) false
        [⟨0, 2, 1, 1, false⟩, ⟨1, 3, 5, 5, false⟩, ⟨2, 4, 2, 2, false⟩]).1
        0 = true ∧
      reduceFlag (flag_bend_to_reduce (3 : ℚ) false
        [⟨0, 2, 1, 1, false⟩, ⟨1, 3, 5, 5, false⟩, ⟨2, 4, 2, 2, false⟩]).1
        2 = true ∧
      ((flag_bend_to_reduce (3 : ℚ) false
          [⟨0, 2, 1, 1, false⟩, ⟨1, 3, 5, 5, false⟩,
            ⟨2, 4, 2, 2, false⟩]).1.getD 0 ⟨0, 0, 0, 0, false⟩).j =
        ((flag_bend_to_reduce (3 : ℚ) false
          [⟨0, 2, 1, 1, false⟩, ⟨1, 3, 5, 5, false⟩,
            ⟨2, 4, 2, 2, false⟩]).1.getD 2 ⟨0, 0, 0, 0, false⟩).i) ∧
      (process_bends (fun _ b => (true, b)) true ((0 : ℚ), (0 : ℚ))
          ⟨0, 0, 0, 0, false⟩ [((0 : ℚ), (0 : ℚ)), (1, 1), (2, 0), (3, 1), (4, 0)]
          (flag_bend_to_reduce (3 : ℚ) false
            [⟨0, 2, 1, 1, false⟩, ⟨1, 3, 5, 5, false⟩,
              ⟨2, 4, 2, 2, false⟩]).1).nbr_bend_reduced = 2 ∧
      (process_bends (fun _ b => (true, b)) true ((0 : ℚ), (0 : ℚ))
          ⟨0, 0, 0, 0, false⟩ [((0 : ℚ), (0 : ℚ)), (1, 1), (2, 0), (3, 1), (4, 0)]
          (flag_bend_to_reduce (3 : ℚ) false
            [⟨0, 2, 1, 1, false⟩, ⟨1, 3, 5, 5, false⟩,
              ⟨2, 4, 2, 2, false⟩]).1).recs =
        [(((2 : ℚ), (0 : ℚ)), ((4 : ℚ), (0 : ℚ))),
          (((0 : ℚ), (0 : ℚ)), ((2 : ℚ), (0 : ℚ)))] := by
  decide

/-- Claim C2 as amended: after `flag_bend_to_reduce` runs on a path whose
bends are fresh (`to_reduce = false`) and whose spans have the structure
produced by `detect_bends` (consecutive bends overlap in exactly one
segment), no two bends at adjacent positions are both marked, and any two
distinct marked bends have non-overlapping spans (`j` of the earlier is at
most `i` of the later; their deleted interiors are disjoint) — but they may
share a chord endpoint, so it is only adjacent bends (never reducible
together) that would double-delete shared vertices. -/
theorem c2_adjacent_exclusion_amended {α : Type} [LinearOrder α]
    (min_adj_area : α) (is_closed : Bool) (bends0 : List (Bend α))
    (dB : Bend α) (h0 : bends0.all (fun b => ! b.to_reduce) = true)
    (hwf : wfSpans (bends0.map spanOf) = true) :
    noTwoAdjacentMarked (flag_bend_to_reduce min_adj_area is_closed bends0).1 ∧
      (∀ k l : ℕ, k < l →
        reduceFlag (flag_bend_to_reduce min_adj_area is_closed bends0).1 k =
          true →
        reduceFlag (flag_bend_to_reduce min_adj_area is_closed bends0).1 l =
          true →
        ((flag_bend_to_reduce min_adj_area is_closed
            bends0).1.getD k dB).j ≤
          ((flag_bend_to_reduce min_adj_area is_closed
            bends0).1.getD l dB).i) ∧
      ∀ (o : List Int) (c : Bool), wfSpans (detect_bends_core o c).1 = true := by
  have hunm' : ∀ k, reduceFlag
      (if is_closed ∧ 3 ≤ bends0.length then (bends0.drop 1).dropLast
       else bends0) k = false := by
    intro k
    apply reduceFlag_of_all_unmarked
    split_ifs with hc
    · exact all_of_sublist
        ((List.dropLast_sublist (bends0.drop 1)).trans
          (List.drop_sublist 1 bends0)) h0
    · exact h0
  have hwf' : wfSpans
      ((if is_closed ∧ 3 ≤ bends0.length then (bends0.drop 1).dropLast
        else bends0).map spanOf) = true := by
    split_ifs with hc
    · rw [List.map_dropLast, List.map_drop]
      exact wfSpans_dropLast _ (wfSpans_drop_one _ hwf)
    · exact hwf
  have key := flag_result_props min_adj_area
    (List.insertionSort (fun p q => p.1 ≤ q.1)
      ((if is_closed ∧ 3 ≤ bends0.length then (bends0.drop 1).dropLast
        else bends0).enum.filterMap
        (fun p => if p.2.area < min_adj_area then some (p.2.adj_area, p.1)
          else none)))
    (if is_closed ∧ 3 ≤ bends0.length then (bends0.drop 1).dropLast
     else bends0) dB hunm' hwf'
  exact ⟨key.1, key.2, fun o c => wfSpans_detect_bends_core o c⟩

/-- Witness for the amended C2 at the concrete three-bend configuration. -/
theorem c2_adjacent_exclusion_amended_witness :
    noTwoAdjacentMarked (flag_bend_to_reduce (3 : ℚ) false
      [⟨0, 2, 1, 1, false⟩, ⟨1, 3, 5, 5, false⟩, ⟨2, 4, 2, 2, false⟩]).1 :=
  (c2_adjacent_exclusion_amended (3 : ℚ) false
    [⟨0, 2, 1, 1, false⟩, ⟨1, 3, 5, 5, false⟩, ⟨2, 4, 2, 2, false⟩]
    ⟨0, 0, 0, 0, false⟩ (by decide) (by decide)).1

theorem process_bends_go_length {P α : Type}
    (validate : ℕ → Bend α → Bool × Bend α) (d : P) (dB : Bend α)
    (hv : ∀ ind b, (validate ind b).2.i < (validate ind b).2.j) :
    ∀ (inds : List ℕ) (st : ProcessState P α),
      (process_bends_go validate false d dB inds st).pts.length ≤
        st.pts.length := by
  intro inds
  induction inds with
  | nil => intro st; exact Nat.le_refl _
  | cons ind rest ih =>
    intro st
    rw [process_bends_go]
    by_cases hb : (st.bends.getD ind dB).to_reduce = true
    · rw [if_pos hb]
      by_cases hv1 : (validate ind (st.bends.getD ind dB)).1 = true
      · rw [if_pos hv1]
        refine le_trans (ih _) ?_
        apply length_delete_vertex_points_le
        have := hv ind (st.bends.getD ind dB)
        omega
      · rw [if_neg hv1]
        exact ih _
    · rw [if_neg hb]
      exact ih _

theorem add_vertex_points_length {P : Type} (pts : List P) (j : ℕ)
    (a c0 c1 b : P) :
    (add_vertex_points pts j [a, c0, c1, b]).length = pts.length + 2 := by
  simp only [add_vertex_points, List.length_append, List.length_take,
    List.length_drop, List.drop_one, List.tail_cons, List.dropLast_cons₂,
    List.dropLast_single, List.length_cons, List.length_nil]
  omega

/-- Claim C4 counterexample: on an open path of 5 vertices with a single
flagged middle bend spanning `(1, 3)`, the pass deletes the one interior
vertex (4 vertices remain), and with smoothing enabled
`manage_smooth_line` finds the chord endpoints adjacent and interior,
inserting the two control points of the 4-point smooth curve: the output
path has 6 vertices — more than the 5 of the input. -/
theorem c4_monotonic_smoothing_counterexample :
    ([((0 : ℚ), (0 : ℚ)), (1, 0), (2, 1), (3, 0), (4, 0)].length = 5) ∧
      ((manage_smooth_line (fun pts p => pts.findIdx? (fun q => q = p))
          (fun _ _ => true)
          (fun _ _ => (((4 : ℚ) / 3, (1 : ℚ) / 3), ((8 : ℚ) / 3, (1 : ℚ) / 3)))
          ((0 : ℚ), (0 : ℚ))
          (process_bends (fun _ b => (true, b)) true ((0 : ℚ), (0 : ℚ))
            ⟨0, 0, 0, 0, false⟩
            [((0 : ℚ), (0 : ℚ)), (1, 0), (2, 1), (3, 0), (4, 0)]
            (flag_bend_to_reduce (3 : ℚ) false
              [⟨0, 2, 5, 5, false⟩, ⟨1, 3, 1, 1, false⟩,
                ⟨2, 4, 5, 5, false⟩]).1).recs
          (process_bends (fun _ b => (true, b)) true ((0 : ℚ), (0 : ℚ))
            ⟨0, 0, 0, 0, false⟩
            [((0 : ℚ), (0 : ℚ)), (1, 0), (2, 1), (3, 0), (4, 0)]
            (flag_bend_to_reduce (3 : ℚ) false
              [⟨0, 2, 5, 5, false⟩, ⟨1, 3, 1, 1, false⟩,
                ⟨2, 4, 5, 5, false⟩]).1).pts).1.length = 6) ∧
      ¬ (6 ≤ 5) := by
  decide

/-- Claim C4 as amended: with smoothing disabled the reduction pass never
increases a path's vertex count (every committed reduction only deletes the
bend's interior vertices), while each smoothed bend inserts exactly the 2
interior control points of its 4-point smooth line — so with smoothing
enabled the output vertex count is bounded by the input count plus twice the
number of smoothed bends, and can exceed the input count. -/
theorem c4_monotonic_amended :
    (∀ {P α : Type} (validate : ℕ → Bend α → Bool × Bend α) (d : P)
        (dB : Bend α) (pts : List P) (bends : List (Bend α)),
        (∀ ind b, (validate ind b).2.i < (validate ind b).2.j) →
        (process_bends validate false d dB pts bends).pts.length ≤
          pts.length) ∧
      ∀ {P : Type} (pts : List P) (j : ℕ) (a c0 c1 b : P),
        (add_vertex_points pts j [a, c0, c1, b]).length = pts.length + 2 := by
  constructor
  · intro P α validate d dB pts bends hv
    exact process_bends_go_length validate d dB hv _ _
  · intro P pts j a c0 c1 b
    exact add_vertex_points_length pts j a c0 c1 b

/-- Witness for the amended C4 at concrete inputs. -/
theorem c4_monotonic_amended_witness :
    ((process_bends (fun _ _ => (true, (⟨0, 2, 0, 0, false⟩ : Bend ℚ)))
        false (0 : ℚ) ⟨0, 0, 0, 0, true⟩ [(0 : ℚ), 1, 2, 3]
        [⟨0, 2, 0, 0, true⟩]).pts.length ≤ 4) ∧
      (add_vertex_points [(0 : ℚ), 1, 2] 1
        [(5 : ℚ), 6, 7, 8]).length = 3 + 2 :=
  ⟨c4_monotonic_amended.1 (fun _ _ => (true, ⟨0, 2, 0, 0, false⟩)) (0 : ℚ)
      ⟨0, 0, 0, 0, true⟩ [(0 : ℚ), 1, 2, 3] [⟨0, 2, 0, 0, true⟩]
      (fun ind b => (by decide : (0 : ℕ) < 2)),
    c4_monotonic_amended.2 [(0 : ℚ), 1, 2] 1 5 6 7 8⟩

end ReduceBendModel
